import Mathlib

/-!
Shallow embedding of the `numbertheory` repository (src/src/primes.rs).

A `Factors` value models the Rust `Factors(BTreeMap<u64, u8>)`: an ordered
association list from prime to exponent (a BTreeMap iterates its entries in
strictly increasing key order, so a sorted, duplicate-free association list
is a faithful model).  A `Primes` value models `Primes(Vec<u64>)`.

All machine integers are modelled as `Nat`; the spec (section 6) makes
fitting in 64 bits a caller obligation, so no wraparound is modelled.
-/

abbrev Factors : Type := List (Nat × Nat)

namespace Factors

/-- Model of BTreeMap lookup with default 0, i.e. `Factors::get`:
`if let Some(exp) = self.0.get(&k) { *exp } else { 0 }`. -/
def get : Factors → Nat → Nat
  | [], _ => 0
  | kv :: rest, k => if kv.1 = k then kv.2 else get rest k

/-- Model of `BTreeMap::contains_key`. -/
def containsKey : Factors → Nat → Bool
  | [], _ => false
  | kv :: rest, k => kv.1 == k || containsKey rest k

/-- Model of `BTreeMap::insert k v`: replace the entry for `k`, or insert it
at its sorted position. -/
def setKey (k v : Nat) : Factors → Factors
  | [] => [(k, v)]
  | kv :: rest =>
    if k < kv.1 then (k, v) :: kv :: rest
    else if k = kv.1 then (k, v) :: rest
    else kv :: setKey k v rest

/-- Model of `*map.entry(k).or_insert(0) += v`. -/
def bumpAdd (k v : Nat) (f : Factors) : Factors := setKey k (get f k + v) f

/-- `Factors::is_empty`. -/
def is_empty (f : Factors) : Bool := f.isEmpty

/-- `Factors::mul`: clone `self`, then `*product.entry(*k).or_insert(0) += v`
for every entry of `rhs`. -/
def mul (a b : Factors) : Factors := b.foldl (fun p kv => bumpAdd kv.1 kv.2 p) a

/-- `Factors::totient`: 0 for the empty factorization, otherwise the running
product of `p.pow(exp) - p.pow(exp - 1)` over the entries. -/
def totient (f : Factors) : Nat :=
  if is_empty f then 0
  else f.foldl (fun t kv => t * (kv.1 ^ kv.2 - kv.1 ^ (kv.2 - 1))) 1

/-- `Factors::is_subset`: the loop returns `false` as soon as
`other.get(*base) <= *exp`, and `true` if no entry triggers that. -/
def is_subset (a b : Factors) : Bool :=
  a.all fun kv => !(decide (get b kv.1 ≤ kv.2))

/-- `Factors::is_superset`. -/
def is_superset (a b : Factors) : Bool := is_subset b a

/-- `Factors::divisor_count`: running product of `exp + 1`. -/
def divisor_count (f : Factors) : Nat := f.foldl (fun d kv => d * (kv.2 + 1)) 1

/-- `Factors::union`: clone `self`; for each entry `(k, v)` of `b`, insert
`v` if `k` is absent, else insert `max` of the stored value and `v`. -/
def union (a b : Factors) : Factors :=
  b.foldl
    (fun u kv =>
      if containsKey u kv.1 then setKey kv.1 (Nat.max (get u kv.1) kv.2) u
      else setKey kv.1 kv.2 u)
    a

/-- `Factors::intersection`: start from the empty map; for each entry
`(k, v)` of `self`, if `b` contains `k`, insert `min v b[k]`. -/
def intersection (a b : Factors) : Factors :=
  a.foldl
    (fun i kv =>
      if containsKey b kv.1 then setKey kv.1 (Nat.min kv.2 (get b kv.1)) i
      else i)
    []

/-- `impl Into<u64> for Factors`: fold `n * base.pow(exp)` starting from 1. -/
def toNat (f : Factors) : Nat := f.foldl (fun n kv => n * kv.1 ^ kv.2) 1

/-- The inner `while n % p == 0 { *factors.entry(p).or_insert(0) += 1; n /= p }`
loop of `Factors::of`.  The guard `2 ≤ p ∧ 0 < n` only totalizes the cases on
which the Rust loop would not terminate (it never blocks an actual iteration:
inside `Factors::of` every prime is ≥ 2 and the remainder stays positive). -/
def divLoop (p : Nat) (n : Nat) (facts : Factors) : Nat × Factors :=
  if h : 2 ≤ p ∧ 0 < n ∧ n % p = 0 then
    divLoop p (n / p) (bumpAdd p 1 facts)
  else (n, facts)
termination_by n
decreasing_by exact Nat.div_lt_self h.2.1 h.1

/-- The `for p in &primes.0` loop of `Factors::of`: divide out `p`, then
return the factorization as soon as `p > n`; `None` if the base runs out. -/
def ofLoop : List Nat → Nat → Factors → Option Factors
  | [], _, _ => none
  | p :: ps, n, facts =>
    let r := divLoop p n facts
    if p > r.1 then some r.2 else ofLoop ps r.1 r.2

/-- `Factors::of`: `None` for 0, the empty factorization for 1, otherwise
the trial-division loop over the base's primes. -/
def of (n : Nat) (primes : List Nat) : Option Factors :=
  match n with
  | 0 => none
  | 1 => some []
  | _ => ofLoop primes n []

end Factors

abbrev Primes : Type := List Nat

namespace Primes

/-- The `while n < max` candidate loop of `Primes::under`: append the odd
candidate `n` when no already-found prime divides it, then advance by 2. -/
def underLoop (mx : Nat) (primes : List Nat) (n : Nat) : List Nat :=
  if n < mx then
    underLoop mx
      (if primes.all (fun p => n % p != 0) then primes ++ [n] else primes)
      (n + 2)
  else primes
termination_by mx - n
decreasing_by omega

/-- `Primes::under`: empty for `max < 2`, otherwise start from `[2]` and test
odd candidates 3, 5, … strictly below `max`. -/
def under (mx : Nat) : Primes :=
  if mx < 2 then [] else underLoop mx [2] 3

/-- `Primes::lcm`, with the Rust match-arm order preserved. -/
def lcm (base : Primes) (m n : Nat) : Option Nat :=
  match m, n with
  | 0, 0 => some 0
  | 0, _ => none
  | _, 0 => none
  | m, 1 => some m
  | 1, n => some n
  | m, n =>
    match Factors.of m base, Factors.of n base with
    | some m_factors, some n_factors =>
      some ((Factors.union m_factors n_factors).foldl
        (fun l kv => l * kv.1 ^ kv.2) 1)
    | _, _ => none

/-- `Primes::gcd`, with the Rust match-arm order preserved. -/
def gcd (base : Primes) (m n : Nat) : Option Nat :=
  match m, n with
  | 0, _ => none
  | _, 0 => none
  | 1, _ => some 1
  | _, 1 => some 1
  | m, n =>
    match Factors.of m base, Factors.of n base with
    | some m_factors, some n_factors =>
      some ((Factors.intersection m_factors n_factors).foldl
        (fun g kv => g * kv.1 ^ kv.2) 1)
    | _, _ => none

end Primes

/-- The remainder left after dividing out every prime of `base` in order:
the "final remainder" of the `Factors::of` loop when the base is exhausted. -/
def residue (base : List Nat) (n : Nat) : Nat :=
  base.foldl (fun r p => (Factors.divLoop p r []).1) n

/-- The key list of a factorization (the BTreeMap's keys, in storage order). -/
def Factors.keys (f : Factors) : List Nat := f.map Prod.fst

/-- The BTreeMap representation invariant: keys are strictly increasing. -/
def SortedKeys (f : Factors) : Prop := List.Pairwise (· < ·) (Factors.keys f)

/-- The documented `Factors` invariant: every stored exponent is positive. -/
def AllPos (f : Factors) : Prop := ∀ kv ∈ f, 0 < kv.2

/-- A well-formed `Primes` value per the spec (section 3): strictly
increasing, all entries prime, and gap-free (together with strict sortedness,
closure under smaller primes makes it exactly "the first K primes"). -/
def ValidBase (base : List Nat) : Prop :=
  List.Pairwise (· < ·) base ∧ (∀ p ∈ base, Nat.Prime p) ∧
    ∀ p ∈ base, ∀ q < p, Nat.Prime q → q ∈ base

instance (f : Factors) : Decidable (SortedKeys f) := by
  unfold SortedKeys; infer_instance

instance (f : Factors) : Decidable (AllPos f) := by
  unfold AllPos; infer_instance

instance (base : List Nat) : Decidable (ValidBase base) := by
  unfold ValidBase; infer_instance

namespace Factors

theorem keys_nil : keys [] = [] := rfl

theorem keys_cons (kv : Nat × Nat) (f : Factors) :
    keys (kv :: f) = kv.1 :: keys f := rfl

theorem get_cons (kv : Nat × Nat) (rest : Factors) (k : Nat) :
    get (kv :: rest) k = if kv.1 = k then kv.2 else get rest k := rfl

theorem setKey_nil (k v : Nat) : setKey k v [] = [(k, v)] := rfl

theorem setKey_cons (k v : Nat) (kv : Nat × Nat) (rest : Factors) :
    setKey k v (kv :: rest) =
      if k < kv.1 then (k, v) :: kv :: rest
      else if k = kv.1 then (k, v) :: rest
      else kv :: setKey k v rest := rfl

theorem get_eq_zero_of_not_mem_keys {f : Factors} {k : Nat}
    (h : k ∉ keys f) : get f k = 0 := by
  induction f with
  | nil => rfl
  | cons kv rest ih =>
    rw [keys_cons, List.mem_cons] at h
    push_neg at h
    have hne : kv.1 ≠ k := fun hh => h.1 hh.symm
    rw [get_cons, if_neg hne]
    exact ih h.2

theorem mem_keys_iff_containsKey (f : Factors) (k : Nat) :
    k ∈ keys f ↔ containsKey f k = true := by
  induction f with
  | nil => simp [keys, containsKey]
  | cons kv rest ih =>
    simp only [keys_cons, List.mem_cons, containsKey, Bool.or_eq_true, beq_iff_eq, ih]
    exact or_congr_left eq_comm

theorem get_mem_of_mem_keys {f : Factors} {k : Nat}
    (h : k ∈ keys f) : (k, get f k) ∈ f := by
  induction f with
  | nil => simp [keys] at h
  | cons kv rest ih =>
    rw [keys_cons, List.mem_cons] at h
    by_cases hk : kv.1 = k
    · rw [get_cons, if_pos hk]
      exact List.mem_cons.2 (Or.inl (by rw [← hk]))
    · have hmem : k ∈ keys rest := h.resolve_left (fun hh => hk hh.symm)
      rw [get_cons, if_neg hk]
      exact List.mem_cons_of_mem _ (ih hmem)

theorem get_setKey_self (k v : Nat) (f : Factors) :
    get (setKey k v f) k = v := by
  induction f with
  | nil => rw [setKey_nil, get_cons, if_pos rfl]
  | cons kv rest ih =>
    rw [setKey_cons]
    by_cases h1 : k < kv.1
    · rw [if_pos h1, get_cons, if_pos rfl]
    · rw [if_neg h1]
      by_cases h2 : k = kv.1
      · rw [if_pos h2, get_cons, if_pos rfl]
      · have hne : kv.1 ≠ k := fun hh => h2 hh.symm
        rw [if_neg h2, get_cons, if_neg hne]
        exact ih

theorem get_setKey_ne (k v j : Nat) (f : Factors) (hj : j ≠ k) :
    get (setKey k v f) j = get f j := by
  have hkj : k ≠ j := fun hh => hj hh.symm
  induction f with
  | nil => rw [setKey_nil, get_cons, if_neg hkj]
  | cons kv rest ih =>
    rw [setKey_cons]
    by_cases h1 : k < kv.1
    · rw [if_pos h1, get_cons, if_neg hkj]
    · rw [if_neg h1]
      by_cases h2 : k = kv.1
      · rw [if_pos h2, get_cons, if_neg hkj, get_cons,
          if_neg (show kv.1 ≠ j by omega)]
      · rw [if_neg h2, get_cons, get_cons]
        by_cases h3 : kv.1 = j
        · rw [if_pos h3, if_pos h3]
        · rw [if_neg h3, if_neg h3]
          exact ih

theorem mem_keys_setKey (k v j : Nat) (f : Factors) :
    j ∈ keys (setKey k v f) ↔ j = k ∨ j ∈ keys f := by
  induction f with
  | nil => simp [setKey_nil, keys]
  | cons kv rest ih =>
    rw [setKey_cons]
    by_cases h1 : k < kv.1
    · rw [if_pos h1]
      simp only [keys_cons, List.mem_cons]
    · rw [if_neg h1]
      by_cases h2 : k = kv.1
      · rw [if_pos h2]
        simp only [keys_cons, List.mem_cons]
        constructor
        · rintro (h | h)
          · exact Or.inl h
          · exact Or.inr (Or.inr h)
        · rintro (h | h | h)
          · exact Or.inl h
          · exact Or.inl (by omega)
          · exact Or.inr h
      · rw [if_neg h2]
        simp only [keys_cons, List.mem_cons, ih]
        tauto

theorem mem_setKey_elim {k v : Nat} {f : Factors} {kv' : Nat × Nat}
    (h : kv' ∈ setKey k v f) : kv' = (k, v) ∨ kv' ∈ f := by
  induction f with
  | nil =>
    rw [setKey_nil] at h
    simpa using h
  | cons kv rest ih =>
    rw [setKey_cons] at h
    by_cases h1 : k < kv.1
    · rw [if_pos h1] at h
      rcases List.mem_cons.1 h with h | h
      · exact Or.inl h
      · exact Or.inr h
    · rw [if_neg h1] at h
      by_cases h2 : k = kv.1
      · rw [if_pos h2] at h
        rcases List.mem_cons.1 h with h | h
        · exact Or.inl h
        · exact Or.inr (List.mem_cons_of_mem _ h)
      · rw [if_neg h2] at h
        rcases List.mem_cons.1 h with h | h
        · exact Or.inr (List.mem_cons.2 (Or.inl h))
        · rcases ih h with h | h
          · exact Or.inl h
          · exact Or.inr (List.mem_cons_of_mem _ h)

theorem sortedKeys_setKey (k v : Nat) {f : Factors} (hs : SortedKeys f) :
    SortedKeys (setKey k v f) := by
  induction f with
  | nil => simp [setKey_nil, SortedKeys, keys]
  | cons kv rest ih =>
    rw [SortedKeys, keys_cons, List.pairwise_cons] at hs
    rw [SortedKeys, setKey_cons]
    by_cases h1 : k < kv.1
    · rw [if_pos h1, keys_cons, keys_cons, List.pairwise_cons]
      constructor
      · intro j hj
        show k < j
        rcases List.mem_cons.1 hj with hj | hj
        · omega
        · have := hs.1 j hj
          omega
      · rw [List.pairwise_cons]
        exact hs
    · rw [if_neg h1]
      by_cases h2 : k = kv.1
      · rw [if_pos h2, keys_cons, List.pairwise_cons]
        constructor
        · intro j hj
          show k < j
          have := hs.1 j hj
          omega
        · exact hs.2
      · rw [if_neg h2, keys_cons, List.pairwise_cons]
        constructor
        · intro j hj
          rcases (mem_keys_setKey k v j rest).1 hj with hj | hj
          · omega
          · exact hs.1 j hj
        · exact ih hs.2

theorem allPos_setKey {k v : Nat} {f : Factors} (hv : 0 < v)
    (hf : AllPos f) : AllPos (setKey k v f) := by
  intro kv' hkv'
  rcases mem_setKey_elim hkv' with h | h
  · exact h ▸ hv
  · exact hf kv' h

theorem foldl_mul_init (g : Nat × Nat → Nat) :
    ∀ (f : Factors) (c : Nat), f.foldl (fun n kv => n * g kv) c = c * (f.map g).prod
  | [], c => by simp
  | kv :: rest, c => by
    rw [List.foldl_cons, foldl_mul_init g rest (c * g kv), List.map_cons,
      List.prod_cons, Nat.mul_assoc]

theorem toNat_nil : toNat [] = 1 := rfl

theorem toNat_eq_prod_map (f : Factors) :
    toNat f = (f.map fun kv => kv.1 ^ kv.2).prod := by
  rw [toNat, foldl_mul_init, Nat.one_mul]

theorem toNat_cons (kv : Nat × Nat) (f : Factors) :
    toNat (kv :: f) = kv.1 ^ kv.2 * toNat f := by
  rw [toNat_eq_prod_map, toNat_eq_prod_map, List.map_cons, List.prod_cons]

theorem toNat_bumpAdd (k v : Nat) {f : Factors} (hs : SortedKeys f) :
    toNat (bumpAdd k v f) = k ^ v * toNat f := by
  induction f with
  | nil =>
    rw [bumpAdd, setKey_nil]
    show toNat [(k, 0 + v)] = k ^ v * toNat []
    rw [Nat.zero_add, toNat_cons, toNat_nil]
  | cons kv rest ih =>
    rw [SortedKeys, keys_cons, List.pairwise_cons] at hs
    rw [bumpAdd]
    by_cases h1 : k < kv.1
    · have hk : k ∉ keys (kv :: rest) := by
        rw [keys_cons]
        intro hmem
        rcases List.mem_cons.1 hmem with h | h
        · omega
        · have := hs.1 k h
          omega
      rw [get_eq_zero_of_not_mem_keys hk, Nat.zero_add, setKey_cons, if_pos h1,
        toNat_cons]
    · by_cases h2 : k = kv.1
      · have hget : get (kv :: rest) k = kv.2 := by
          rw [get_cons, if_pos h2.symm]
        rw [hget, setKey_cons, if_neg h1, if_pos h2, toNat_cons, toNat_cons]
        show k ^ (kv.2 + v) * toNat rest = k ^ v * (kv.1 ^ kv.2 * toNat rest)
        rw [← h2, pow_add]
        ring
      · have hget : get (kv :: rest) k = get rest k := by
          rw [get_cons, if_neg (fun hh : kv.1 = k => h2 hh.symm)]
        rw [hget, setKey_cons, if_neg h1, if_neg h2, toNat_cons]
        have hrec := ih hs.2
        rw [bumpAdd] at hrec
        rw [hrec, toNat_cons]
        ring

theorem divLoop_eq (p n : Nat) (facts : Factors) :
    divLoop p n facts =
      if 2 ≤ p ∧ 0 < n ∧ n % p = 0 then divLoop p (n / p) (bumpAdd p 1 facts)
      else (n, facts) := by
  rw [divLoop]
  exact dite_eq_ite

theorem divLoop_fst_pos (p : Nat) : ∀ (n : Nat) (facts : Factors), 0 < n →
    0 < (divLoop p n facts).1 := by
  intro n
  induction n using Nat.strong_induction_on with
  | _ n ih =>
    intro facts hn
    rw [divLoop_eq]
    by_cases h : 2 ≤ p ∧ 0 < n ∧ n % p = 0
    · rw [if_pos h]
      have hdvd : p ∣ n := Nat.dvd_of_mod_eq_zero h.2.2
      have hlt : n / p < n := Nat.div_lt_self hn h.1
      have hpos : 0 < n / p := Nat.div_pos (Nat.le_of_dvd hn hdvd) (by omega)
      exact ih (n / p) hlt _ hpos
    · rw [if_neg h]
      exact hn

theorem divLoop_fst_dvd (p : Nat) : ∀ (n : Nat) (facts : Factors),
    (divLoop p n facts).1 ∣ n := by
  intro n
  induction n using Nat.strong_induction_on with
  | _ n ih =>
    intro facts
    rw [divLoop_eq]
    by_cases h : 2 ≤ p ∧ 0 < n ∧ n % p = 0
    · rw [if_pos h]
      have hdvd : p ∣ n := Nat.dvd_of_mod_eq_zero h.2.2
      have hlt : n / p < n := Nat.div_lt_self h.2.1 h.1
      exact dvd_trans (ih (n / p) hlt _) ⟨p, (Nat.div_mul_cancel hdvd).symm⟩
    · rw [if_neg h]

theorem divLoop_fst_not_dvd {p : Nat} (hp : 2 ≤ p) : ∀ (n : Nat) (facts : Factors),
    0 < n → ¬ p ∣ (divLoop p n facts).1 := by
  intro n
  induction n using Nat.strong_induction_on with
  | _ n ih =>
    intro facts hn
    rw [divLoop_eq]
    by_cases h : 2 ≤ p ∧ 0 < n ∧ n % p = 0
    · rw [if_pos h]
      have hdvd : p ∣ n := Nat.dvd_of_mod_eq_zero h.2.2
      have hlt : n / p < n := Nat.div_lt_self hn h.1
      have hpos : 0 < n / p := Nat.div_pos (Nat.le_of_dvd hn hdvd) (by omega)
      exact ih (n / p) hlt _ hpos
    · rw [if_neg h]
      intro hdvd
      obtain ⟨c, rfl⟩ := hdvd
      exact h ⟨hp, hn, Nat.mul_mod_right p c⟩

theorem divLoop_fst_indep (p : Nat) : ∀ (n : Nat) (facts facts' : Factors),
    (divLoop p n facts).1 = (divLoop p n facts').1 := by
  intro n
  induction n using Nat.strong_induction_on with
  | _ n ih =>
    intro facts facts'
    rw [divLoop_eq p n facts, divLoop_eq p n facts']
    by_cases h : 2 ≤ p ∧ 0 < n ∧ n % p = 0
    · rw [if_pos h, if_pos h]
      exact ih (n / p) (Nat.div_lt_self h.2.1 h.1) _ _
    · rw [if_neg h, if_neg h]

theorem divLoop_sorted (p : Nat) : ∀ (n : Nat) (facts : Factors),
    SortedKeys facts → SortedKeys (divLoop p n facts).2 := by
  intro n
  induction n using Nat.strong_induction_on with
  | _ n ih =>
    intro facts hs
    rw [divLoop_eq]
    by_cases h : 2 ≤ p ∧ 0 < n ∧ n % p = 0
    · rw [if_pos h]
      exact ih (n / p) (Nat.div_lt_self h.2.1 h.1) _ (sortedKeys_setKey _ _ hs)
    · rw [if_neg h]
      exact hs

theorem divLoop_allpos (p : Nat) : ∀ (n : Nat) (facts : Factors),
    AllPos facts → AllPos (divLoop p n facts).2 := by
  intro n
  induction n using Nat.strong_induction_on with
  | _ n ih =>
    intro facts ha
    rw [divLoop_eq]
    by_cases h : 2 ≤ p ∧ 0 < n ∧ n % p = 0
    · rw [if_pos h]
      exact ih (n / p) (Nat.div_lt_self h.2.1 h.1) _
        (allPos_setKey (Nat.succ_pos _) ha)
    · rw [if_neg h]
      exact ha

theorem divLoop_toNat {p : Nat} (hp : 2 ≤ p) : ∀ (n : Nat) (facts : Factors),
    0 < n → SortedKeys facts →
    toNat (divLoop p n facts).2 * (divLoop p n facts).1 = toNat facts * n := by
  intro n
  induction n using Nat.strong_induction_on with
  | _ n ih =>
    intro facts hn hs
    rw [divLoop_eq]
    by_cases h : 2 ≤ p ∧ 0 < n ∧ n % p = 0
    · rw [if_pos h]
      have hdvd : p ∣ n := Nat.dvd_of_mod_eq_zero h.2.2
      have hlt : n / p < n := Nat.div_lt_self hn h.1
      have hpos : 0 < n / p := Nat.div_pos (Nat.le_of_dvd hn hdvd) (by omega)
      have hsb : SortedKeys (bumpAdd p 1 facts) := by
        rw [bumpAdd]
        exact sortedKeys_setKey _ _ hs
      have htb : toNat (bumpAdd p 1 facts) = p ^ 1 * toNat facts :=
        toNat_bumpAdd _ _ hs
      rw [ih (n / p) hlt (bumpAdd p 1 facts) hpos hsb, htb, pow_one,
        Nat.mul_comm p (toNat facts), Nat.mul_assoc, Nat.mul_div_cancel' hdvd]
    · rw [if_neg h]

theorem ofLoop_sorted (ps : List Nat) : ∀ (n : Nat) (facts f : Factors),
    SortedKeys facts → ofLoop ps n facts = some f → SortedKeys f := by
  induction ps with
  | nil =>
    intro n facts f _ h
    simp [ofLoop] at h
  | cons p ps ih =>
    intro n facts f hs h
    simp only [ofLoop] at h
    by_cases hgt : (divLoop p n facts).1 < p
    · rw [if_pos hgt] at h
      obtain rfl : (divLoop p n facts).2 = f := Option.some.inj h
      exact divLoop_sorted p n facts hs
    · rw [if_neg hgt] at h
      exact ih _ _ _ (divLoop_sorted p n facts hs) h

theorem ofLoop_allpos (ps : List Nat) : ∀ (n : Nat) (facts f : Factors),
    AllPos facts → ofLoop ps n facts = some f → AllPos f := by
  induction ps with
  | nil =>
    intro n facts f _ h
    simp [ofLoop] at h
  | cons p ps ih =>
    intro n facts f ha h
    simp only [ofLoop] at h
    by_cases hgt : (divLoop p n facts).1 < p
    · rw [if_pos hgt] at h
      obtain rfl : (divLoop p n facts).2 = f := Option.some.inj h
      exact divLoop_allpos p n facts ha
    · rw [if_neg hgt] at h
      exact ih _ _ _ (divLoop_allpos p n facts ha) h

/-- Master characterization of a successful run of the `Factors::of` loop:
it stopped at some base prime `p'` whose position splits the base as
`pre ++ p' :: post`, with a final remainder `r < p'` that divides the input,
is not divisible by any processed prime, and satisfies the running-product
invariant. -/
theorem ofLoop_some (ps : List Nat) : ∀ (n : Nat) (facts f : Factors),
    (∀ p ∈ ps, 2 ≤ p) → 0 < n → SortedKeys facts →
    ofLoop ps n facts = some f →
    ∃ pre p' post r, ps = pre ++ p' :: post ∧ r < p' ∧ 0 < r ∧ r ∣ n ∧
      (∀ q ∈ pre, ¬ q ∣ r) ∧ ¬ p' ∣ r ∧
      toNat f * r = toNat facts * n := by
  induction ps with
  | nil =>
    intro n facts f _ _ _ h
    simp [ofLoop] at h
  | cons p ps ih =>
    intro n facts f h2 hn hs h
    have hp2 : 2 ≤ p := h2 p (List.mem_cons_self p ps)
    simp only [ofLoop] at h
    by_cases hgt : (divLoop p n facts).1 < p
    · rw [if_pos hgt] at h
      obtain rfl : (divLoop p n facts).2 = f := Option.some.inj h
      exact ⟨[], p, ps, (divLoop p n facts).1, rfl, hgt,
        divLoop_fst_pos p n facts hn, divLoop_fst_dvd p n facts,
        by simp, divLoop_fst_not_dvd hp2 n facts hn,
        divLoop_toNat hp2 n facts hn hs⟩
    · rw [if_neg hgt] at h
      have hr1 : 0 < (divLoop p n facts).1 := divLoop_fst_pos p n facts hn
      obtain ⟨pre, p', post, r, hps, hrp, hr, hrdvd, hpre, hnp', htn⟩ :=
        ih _ _ _ (fun q hq => h2 q (List.mem_cons_of_mem _ hq)) hr1
          (divLoop_sorted p n facts hs) h
      refine ⟨p :: pre, p', post, r, by rw [hps]; rfl, hrp, hr,
        dvd_trans hrdvd (divLoop_fst_dvd p n facts), ?_, hnp', ?_⟩
      · intro q hq
        rcases List.mem_cons.1 hq with rfl | hq
        · intro hdvd
          exact divLoop_fst_not_dvd hp2 n facts hn (dvd_trans hdvd hrdvd)
        · exact hpre q hq
      · rw [htn]
        exact divLoop_toNat hp2 n facts hn hs

end Factors

theorem residue_nil (n : Nat) : residue [] n = n := rfl

theorem residue_cons (p : Nat) (ps : List Nat) (n : Nat) :
    residue (p :: ps) n = residue ps (Factors.divLoop p n []).1 := rfl

theorem residue_dvd (ps : List Nat) : ∀ n : Nat, residue ps n ∣ n := by
  induction ps with
  | nil => intro n; rw [residue_nil]
  | cons p ps ih =>
    intro n
    rw [residue_cons]
    exact dvd_trans (ih _) (Factors.divLoop_fst_dvd p n [])

theorem residue_pos (ps : List Nat) : ∀ n : Nat, 0 < n → 0 < residue ps n := by
  induction ps with
  | nil => intro n hn; rwa [residue_nil]
  | cons p ps ih =>
    intro n hn
    rw [residue_cons]
    exact ih _ (Factors.divLoop_fst_pos p n [] hn)

theorem residue_not_dvd (ps : List Nat) : ∀ n : Nat, 0 < n →
    ∀ q ∈ ps, 2 ≤ q → ¬ q ∣ residue ps n := by
  induction ps with
  | nil => intro n _ q hq; simp at hq
  | cons p ps ih =>
    intro n hn q hq hq2
    rw [residue_cons]
    rcases List.mem_cons.1 hq with rfl | hq
    · intro hdvd
      exact Factors.divLoop_fst_not_dvd hq2 n [] hn
        (dvd_trans hdvd (residue_dvd ps _))
    · exact ih _ (Factors.divLoop_fst_pos p n [] hn) q hq hq2

theorem mem_of_getLast?_eq : ∀ {l : List Nat} {a : Nat},
    l.getLast? = some a → a ∈ l
  | [], a, h => by simp at h
  | [x], a, h => by
    simp only [List.getLast?_singleton, Option.some.injEq] at h
    simp [h]
  | x :: y :: l, a, h => by
    rw [List.getLast?_cons_cons] at h
    exact List.mem_cons_of_mem _ (mem_of_getLast?_eq h)

theorem head_le_of_getLast?_eq : ∀ {l : List Nat} {p a : Nat},
    List.Pairwise (· < ·) (p :: l) → (p :: l).getLast? = some a → p ≤ a
  | [], p, a, _, h => by
    simp only [List.getLast?_singleton, Option.some.injEq] at h
    omega
  | x :: l, p, a, hp, h => by
    rw [List.getLast?_cons_cons] at h
    have hxa : x ≤ a := head_le_of_getLast?_eq (List.pairwise_cons.1 hp).2 h
    have hpx : p < x := (List.pairwise_cons.1 hp).1 x (List.mem_cons_self _ _)
    omega

/-- The `Factors::of` loop returns `None` exactly when it never certifies:
for a sorted base of entries ≥ 2, that happens exactly when the base is
empty or its last prime does not exceed the final remainder. -/
theorem ofLoop_none_iff (ps : List Nat) : ∀ (n : Nat) (facts : Factors),
    0 < n → (∀ p ∈ ps, 2 ≤ p) → List.Pairwise (· < ·) ps →
    (Factors.ofLoop ps n facts = none ↔
      ps = [] ∨ ∃ pl, ps.getLast? = some pl ∧ pl ≤ residue ps n) := by
  induction ps with
  | nil =>
    intro n facts _ _ _
    simp [Factors.ofLoop]
  | cons p ps ih =>
    intro n facts hn h2 hsort
    have hind : (Factors.divLoop p n facts).1 = (Factors.divLoop p n []).1 :=
      Factors.divLoop_fst_indep p n facts []
    have hr1pos : 0 < (Factors.divLoop p n []).1 :=
      Factors.divLoop_fst_pos p n [] hn
    simp only [Factors.ofLoop]
    rw [residue_cons]
    by_cases hgt : (Factors.divLoop p n facts).1 < p
    · rw [if_pos hgt]
      constructor
      · intro h
        exact absurd h (by simp)
      · rintro (h | ⟨pl, hlast, hple⟩)
        · exact absurd h (List.cons_ne_nil p ps)
        · have hple' : p ≤ pl := head_le_of_getLast?_eq hsort hlast
          have hres : residue ps (Factors.divLoop p n []).1 ≤
              (Factors.divLoop p n []).1 :=
            Nat.le_of_dvd hr1pos (residue_dvd ps _)
          omega
    · rw [if_neg hgt]
      rw [hind] at hgt ⊢
      have hsub := ih (Factors.divLoop p n []).1 (Factors.divLoop p n facts).2
        hr1pos (fun q hq => h2 q (List.mem_cons_of_mem _ hq))
        (List.pairwise_cons.1 hsort).2
      rw [hsub]
      cases ps with
      | nil =>
        simp only [List.getLast?_singleton]
        constructor
        · intro _
          exact Or.inr ⟨p, by simp, by rw [residue_nil]; omega⟩
        · intro _
          exact Or.inl (by simp)
      | cons q qs =>
        rw [List.getLast?_cons_cons]
        constructor
        · rintro (h | h)
          · exact absurd h (List.cons_ne_nil q qs)
          · exact Or.inr h
        · rintro (h | h)
          · exact absurd h (List.cons_ne_nil p (q :: qs))
          · exact Or.inr h

theorem sortedKeys_nil : SortedKeys [] := List.Pairwise.nil

theorem allPos_nil : AllPos [] := by
  intro kv hkv
  simp at hkv

namespace Factors

theorem union_nil (a : Factors) : union a [] = a := rfl

theorem union_cons (a : Factors) (kv : Nat × Nat) (rest : Factors) :
    union a (kv :: rest) =
      union
        (if containsKey a kv.1 then setKey kv.1 (Nat.max (get a kv.1) kv.2) a
         else setKey kv.1 kv.2 a) rest := rfl

theorem mem_keys_union : ∀ (b a : Factors) (k : Nat),
    k ∈ keys (union a b) ↔ k ∈ keys a ∨ k ∈ keys b := by
  intro b
  induction b with
  | nil =>
    intro a k
    rw [union_nil]
    simp [keys]
  | cons kv rest ih =>
    intro a k
    rw [union_cons]
    by_cases hc : containsKey a kv.1
    · rw [if_pos hc, ih, mem_keys_setKey]
      simp only [keys_cons, List.mem_cons]
      tauto
    · rw [if_neg hc, ih, mem_keys_setKey]
      simp only [keys_cons, List.mem_cons]
      tauto

theorem get_union : ∀ (b : Factors), (keys b).Nodup → ∀ (a : Factors) (k : Nat),
    get (union a b) k = Nat.max (get a k) (get b k) := by
  intro b
  induction b with
  | nil =>
    intro _ a k
    rw [union_nil]
    exact (Nat.max_eq_left (Nat.zero_le _)).symm
  | cons kv rest ih =>
    intro hb a k
    rw [keys_cons, List.nodup_cons] at hb
    rw [union_cons]
    have hstep : get
        (if containsKey a kv.1 then setKey kv.1 (Nat.max (get a kv.1) kv.2) a
         else setKey kv.1 kv.2 a) k =
        if kv.1 = k then Nat.max (get a kv.1) kv.2 else get a k := by
      by_cases hc : containsKey a kv.1
      · rw [if_pos hc]
        by_cases hj : kv.1 = k
        · rw [if_pos hj, ← hj, get_setKey_self]
        · rw [if_neg hj, get_setKey_ne _ _ _ _ (fun hh => hj hh.symm)]
      · rw [if_neg hc]
        have h0 : get a kv.1 = 0 := get_eq_zero_of_not_mem_keys
          (fun hm => hc ((mem_keys_iff_containsKey a kv.1).1 hm))
        by_cases hj : kv.1 = k
        · rw [if_pos hj, ← hj, get_setKey_self, h0]
          exact (Nat.max_eq_right (Nat.zero_le _)).symm
        · rw [if_neg hj, get_setKey_ne _ _ _ _ (fun hh => hj hh.symm)]
    rw [ih hb.2, hstep]
    by_cases hk : kv.1 = k
    · rw [if_pos hk, get_cons, if_pos hk]
      have h0 : get rest k = 0 := get_eq_zero_of_not_mem_keys (hk ▸ hb.1)
      rw [h0, ← hk]
      exact Nat.max_eq_left (Nat.zero_le _)
    · rw [if_neg hk, get_cons, if_neg hk]

theorem sortedKeys_union : ∀ (b a : Factors), SortedKeys a →
    SortedKeys (union a b) := by
  intro b
  induction b with
  | nil =>
    intro a ha
    rwa [union_nil]
  | cons kv rest ih =>
    intro a ha
    rw [union_cons]
    by_cases hc : containsKey a kv.1
    · rw [if_pos hc]
      exact ih _ (sortedKeys_setKey _ _ ha)
    · rw [if_neg hc]
      exact ih _ (sortedKeys_setKey _ _ ha)

theorem allPos_union : ∀ (b a : Factors), AllPos a → AllPos b →
    AllPos (union a b) := by
  intro b
  induction b with
  | nil =>
    intro a ha _
    rwa [union_nil]
  | cons kv rest ih =>
    intro a ha hb
    have hkv : 0 < kv.2 := hb kv (List.mem_cons_self _ _)
    have hb' : AllPos rest := fun kv' h => hb kv' (List.mem_cons_of_mem _ h)
    rw [union_cons]
    by_cases hc : containsKey a kv.1
    · rw [if_pos hc]
      exact ih _ (allPos_setKey (lt_of_lt_of_le hkv (Nat.le_max_right _ _)) ha) hb'
    · rw [if_neg hc]
      exact ih _ (allPos_setKey hkv ha) hb'

theorem intersection_eq_foldl (a b : Factors) :
    intersection a b = a.foldl
      (fun i kv =>
        if containsKey b kv.1 then setKey kv.1 (Nat.min kv.2 (get b kv.1)) i
        else i) [] := rfl

theorem interAux_mem_keys (b : Factors) : ∀ (a : List (Nat × Nat)) (i : Factors)
    (k : Nat),
    k ∈ keys (a.foldl
      (fun i kv =>
        if containsKey b kv.1 then setKey kv.1 (Nat.min kv.2 (get b kv.1)) i
        else i) i) ↔
      k ∈ keys i ∨ (k ∈ keys a ∧ k ∈ keys b) := by
  intro a
  induction a with
  | nil =>
    intro i k
    simp [keys]
  | cons kv rest ih =>
    intro i k
    simp only [List.foldl_cons]
    rw [ih]
    by_cases hc : containsKey b kv.1
    · rw [if_pos hc, mem_keys_setKey]
      have hcb : kv.1 ∈ keys b := (mem_keys_iff_containsKey b kv.1).2 hc
      simp only [keys_cons, List.mem_cons]
      by_cases hk : k = kv.1
      · subst hk
        tauto
      · tauto
    · rw [if_neg hc]
      have hcb : kv.1 ∉ keys b := fun hm => hc ((mem_keys_iff_containsKey b kv.1).1 hm)
      simp only [keys_cons, List.mem_cons]
      by_cases hk : k = kv.1
      · subst hk
        tauto
      · tauto

theorem interAux_get (b : Factors) : ∀ (a : List (Nat × Nat)), (keys a).Nodup →
    ∀ (i : Factors) (k : Nat),
    get (a.foldl
      (fun i kv =>
        if containsKey b kv.1 then setKey kv.1 (Nat.min kv.2 (get b kv.1)) i
        else i) i) k =
      if k ∈ keys a ∧ k ∈ keys b then Nat.min (get a k) (get b k) else get i k := by
  intro a
  induction a with
  | nil =>
    intro _ i k
    rw [List.foldl_nil, if_neg]
    intro hcond
    simp [keys] at hcond
  | cons kv rest ih =>
    intro ha i k
    rw [keys_cons, List.nodup_cons] at ha
    simp only [List.foldl_cons]
    rw [ih ha.2]
    by_cases hk : k = kv.1
    · have hnr : k ∉ keys rest := fun hm => ha.1 (hk ▸ hm)
      rw [if_neg (fun hcond => hnr hcond.1), hk]
      by_cases hc : containsKey b kv.1
      · have hcb : kv.1 ∈ keys b := (mem_keys_iff_containsKey b kv.1).2 hc
        have hmem1 : kv.1 ∈ keys (kv :: rest) := by
          rw [keys_cons]
          exact List.mem_cons_self _ _
        rw [if_pos hc, get_setKey_self, if_pos ⟨hmem1, hcb⟩, get_cons, if_pos rfl]
      · have hcb : kv.1 ∉ keys b :=
          fun hm => hc ((mem_keys_iff_containsKey b kv.1).1 hm)
        rw [if_neg hc, if_neg (fun hcond => hcb hcond.2)]
    · have hmem : k ∈ keys (kv :: rest) ↔ k ∈ keys rest := by
        rw [keys_cons, List.mem_cons]
        constructor
        · rintro (h | h)
          · exact absurd h hk
          · exact h
        · exact Or.inr
      have hgetc : get (kv :: rest) k = get rest k := by
        rw [get_cons, if_neg (fun hh => hk hh.symm)]
      have hstep : get
          (if containsKey b kv.1 then setKey kv.1 (Nat.min kv.2 (get b kv.1)) i
           else i) k = get i k := by
        by_cases hc : containsKey b kv.1
        · rw [if_pos hc, get_setKey_ne _ _ _ _ hk]
        · rw [if_neg hc]
      rw [hstep, hgetc]
      by_cases hcond : k ∈ keys rest ∧ k ∈ keys b
      · rw [if_pos hcond, if_pos ⟨hmem.2 hcond.1, hcond.2⟩]
      · rw [if_neg hcond, if_neg (fun hc2 => hcond ⟨hmem.1 hc2.1, hc2.2⟩)]

theorem interAux_sorted (b : Factors) : ∀ (a : List (Nat × Nat)) (i : Factors),
    SortedKeys i → SortedKeys (a.foldl
      (fun i kv =>
        if containsKey b kv.1 then setKey kv.1 (Nat.min kv.2 (get b kv.1)) i
        else i) i) := by
  intro a
  induction a with
  | nil =>
    intro i hi
    exact hi
  | cons kv rest ih =>
    intro i hi
    simp only [List.foldl_cons]
    refine ih _ ?_
    by_cases hc : containsKey b kv.1
    · rw [if_pos hc]
      exact sortedKeys_setKey _ _ hi
    · rwa [if_neg hc]

theorem interAux_allpos (b : Factors) (hb : AllPos b) :
    ∀ (a : List (Nat × Nat)), AllPos a → ∀ (i : Factors), AllPos i →
    AllPos (a.foldl
      (fun i kv =>
        if containsKey b kv.1 then setKey kv.1 (Nat.min kv.2 (get b kv.1)) i
        else i) i) := by
  intro a
  induction a with
  | nil =>
    intro _ i hi
    exact hi
  | cons kv rest ih =>
    intro ha i hi
    have ha' : AllPos rest := fun kv' h => ha kv' (List.mem_cons_of_mem _ h)
    simp only [List.foldl_cons]
    refine ih ha' _ ?_
    by_cases hc : containsKey b kv.1
    · rw [if_pos hc]
      have hkv : 0 < kv.2 := ha kv (List.mem_cons_self _ _)
      have hgb : 0 < get b kv.1 :=
        hb _ (get_mem_of_mem_keys ((mem_keys_iff_containsKey b kv.1).2 hc))
      exact allPos_setKey (lt_min hkv hgb) hi
    · rwa [if_neg hc]

theorem mem_keys_intersection (a b : Factors) (k : Nat) :
    k ∈ keys (intersection a b) ↔ k ∈ keys a ∧ k ∈ keys b := by
  rw [intersection_eq_foldl, interAux_mem_keys]
  simp [keys]

theorem get_intersection (a b : Factors) (ha : (keys a).Nodup) (k : Nat) :
    get (intersection a b) k =
      if k ∈ keys a ∧ k ∈ keys b then Nat.min (get a k) (get b k) else 0 := by
  rw [intersection_eq_foldl, interAux_get b a ha]
  rfl

theorem sortedKeys_intersection (a b : Factors) :
    SortedKeys (intersection a b) := by
  rw [intersection_eq_foldl]
  exact interAux_sorted b a [] sortedKeys_nil

theorem allPos_intersection (a b : Factors) (ha : AllPos a) (hb : AllPos b) :
    AllPos (intersection a b) := by
  rw [intersection_eq_foldl]
  exact interAux_allpos b hb a ha [] allPos_nil

theorem nodup_keys_of_sorted {f : Factors} (hs : SortedKeys f) :
    (keys f).Nodup :=
  hs.imp ne_of_lt

theorem get_eq_of_mem {f : Factors} (hnd : (keys f).Nodup) {kv : Nat × Nat}
    (h : kv ∈ f) : get f kv.1 = kv.2 := by
  induction f with
  | nil => simp at h
  | cons kv0 rest ih =>
    rw [keys_cons, List.nodup_cons] at hnd
    rcases List.mem_cons.1 h with rfl | h
    · rw [get_cons, if_pos rfl]
    · have hne : kv0.1 ≠ kv.1 := by
        intro hh
        refine hnd.1 ?_
        rw [hh]
        exact List.mem_map_of_mem Prod.fst h
      rw [get_cons, if_neg hne]
      exact ih hnd.2 h

theorem toNat_eq_prod {f : Factors} (hnd : (keys f).Nodup) :
    toNat f = ∏ k in (keys f).toFinset, k ^ get f k := by
  rw [toNat_eq_prod_map, List.prod_toFinset _ hnd]
  show (f.map fun kv => kv.1 ^ kv.2).prod =
    ((f.map Prod.fst).map fun k => k ^ get f k).prod
  rw [List.map_map]
  congr 1
  apply List.map_congr_left
  intro kv hkv
  show kv.1 ^ kv.2 = kv.1 ^ get f kv.1
  rw [get_eq_of_mem hnd hkv]

/-- The central algebraic fact behind `gcd(m,n) * lcm(m,n) = m * n`:
exponent-wise min times exponent-wise max multiply to the product. -/
theorem toNat_inter_mul_toNat_union (a b : Factors)
    (ha : SortedKeys a) (hb : SortedKeys b) :
    toNat (intersection a b) * toNat (union a b) = toNat a * toNat b := by
  classical
  have hna := nodup_keys_of_sorted ha
  have hnb := nodup_keys_of_sorted hb
  have hnu := nodup_keys_of_sorted (sortedKeys_union b a ha)
  have hni := nodup_keys_of_sorted (sortedKeys_intersection a b)
  have hUkeys : (keys (union a b)).toFinset =
      (keys a).toFinset ∪ (keys b).toFinset := by
    ext k
    simp only [List.mem_toFinset, Finset.mem_union]
    exact mem_keys_union b a k
  have hIkeys : (keys (intersection a b)).toFinset =
      (keys a).toFinset ∩ (keys b).toFinset := by
    ext k
    simp only [List.mem_toFinset, Finset.mem_inter]
    exact mem_keys_intersection a b k
  rw [toNat_eq_prod hni, toNat_eq_prod hnu, hIkeys, hUkeys]
  have hstep1 : (∏ k in (keys a).toFinset ∩ (keys b).toFinset,
        k ^ get (intersection a b) k) =
      ∏ k in (keys a).toFinset ∩ (keys b).toFinset,
        k ^ Nat.min (get a k) (get b k) := by
    refine Finset.prod_congr rfl fun k hk => ?_
    rw [Finset.mem_inter, List.mem_toFinset, List.mem_toFinset] at hk
    rw [get_intersection a b hna k, if_pos hk]
  have hstep2 : (∏ k in (keys a).toFinset ∪ (keys b).toFinset,
        k ^ get (union a b) k) =
      ∏ k in (keys a).toFinset ∪ (keys b).toFinset,
        k ^ Nat.max (get a k) (get b k) := by
    refine Finset.prod_congr rfl fun k _ => ?_
    rw [get_union b hnb a k]
  rw [hstep1, hstep2]
  have hstep3 : (∏ k in (keys a).toFinset ∩ (keys b).toFinset,
        k ^ Nat.min (get a k) (get b k)) =
      ∏ k in (keys a).toFinset ∪ (keys b).toFinset,
        k ^ Nat.min (get a k) (get b k) := by
    refine Finset.prod_subset Finset.inter_subset_union fun k hkU hkI => ?_
    rw [Finset.mem_inter, List.mem_toFinset, List.mem_toFinset] at hkI
    by_cases hka : k ∈ keys a
    · have hkb : k ∉ keys b := fun hkb => hkI ⟨hka, hkb⟩
      have h0 : Nat.min (get a k) 0 = 0 := Nat.min_zero _
      rw [get_eq_zero_of_not_mem_keys hkb, h0, pow_zero]
    · have h0 : Nat.min 0 (get b k) = 0 := Nat.zero_min _
      rw [get_eq_zero_of_not_mem_keys hka, h0, pow_zero]
  rw [hstep3, ← Finset.prod_mul_distrib]
  have hstep4 : (∏ k in (keys a).toFinset ∪ (keys b).toFinset,
        k ^ Nat.min (get a k) (get b k) * k ^ Nat.max (get a k) (get b k)) =
      ∏ k in (keys a).toFinset ∪ (keys b).toFinset,
        k ^ get a k * k ^ get b k := by
    refine Finset.prod_congr rfl fun k _ => ?_
    rw [← pow_add, ← pow_add]
    congr 1
    exact min_add_max _ _
  rw [hstep4, Finset.prod_mul_distrib, toNat_eq_prod hna, toNat_eq_prod hnb]
  congr 1
  · symm
    refine Finset.prod_subset Finset.subset_union_left fun k _ hkA => ?_
    rw [List.mem_toFinset] at hkA
    rw [get_eq_zero_of_not_mem_keys hkA, pow_zero]
  · symm
    refine Finset.prod_subset Finset.subset_union_right fun k _ hkB => ?_
    rw [List.mem_toFinset] at hkB
    rw [get_eq_zero_of_not_mem_keys hkB, pow_zero]

/-- Two sorted association lists with the same key set and the same lookups
are equal: BTreeMaps are extensional. -/
theorem factors_ext : ∀ (f g : Factors), SortedKeys f → SortedKeys g →
    (∀ k, k ∈ keys f ↔ k ∈ keys g) → (∀ k, get f k = get g k) → f = g := by
  intro f
  induction f with
  | nil =>
    intro g _ hg hmem _
    cases g with
    | nil => rfl
    | cons kw g' =>
      exact absurd
        ((hmem kw.1).2 (by rw [keys_cons]; exact List.mem_cons_self _ _))
        (by simp [keys])
  | cons kv f' ih =>
    intro g hf hg hmem hget
    cases g with
    | nil =>
      exact absurd
        ((hmem kv.1).1 (by rw [keys_cons]; exact List.mem_cons_self _ _))
        (by simp [keys])
    | cons kw g' =>
      rw [SortedKeys, keys_cons, List.pairwise_cons] at hf hg
      have hk12 : kv.1 = kw.1 := by
        rcases Nat.lt_trichotomy kv.1 kw.1 with hlt | heq | hgt
        · have h1 : kv.1 ∈ keys (kw :: g') :=
            (hmem kv.1).1 (by rw [keys_cons]; exact List.mem_cons_self _ _)
          rw [keys_cons, List.mem_cons] at h1
          rcases h1 with h | h
          · omega
          · have := hg.1 kv.1 h
            omega
        · exact heq
        · have h1 : kw.1 ∈ keys (kv :: f') :=
            (hmem kw.1).2 (by rw [keys_cons]; exact List.mem_cons_self _ _)
          rw [keys_cons, List.mem_cons] at h1
          rcases h1 with h | h
          · omega
          · have := hf.1 kw.1 h
            omega
      have hv : kv.2 = kw.2 := by
        have h1 := hget kv.1
        rw [get_cons, if_pos rfl, get_cons, if_pos hk12.symm] at h1
        exact h1
      have hnf : kv.1 ∉ keys f' := fun hm => absurd (hf.1 _ hm) (lt_irrefl _)
      have hng : kv.1 ∉ keys g' := fun hm => by
        have := hg.1 _ hm
        omega
      have htail : f' = g' := by
        refine ih g' hf.2 hg.2 ?_ ?_
        · intro k
          constructor
          · intro hm
            have hk : k ≠ kv.1 := fun hh => hnf (hh ▸ hm)
            have hmg : k ∈ keys (kw :: g') := (hmem k).1
              (by rw [keys_cons]; exact List.mem_cons_of_mem _ hm)
            rw [keys_cons, List.mem_cons] at hmg
            rcases hmg with h | h
            · exact absurd h (by omega)
            · exact h
          · intro hm
            have hk : k ≠ kv.1 := fun hh => hng (hh ▸ hm)
            have hmf : k ∈ keys (kv :: f') := (hmem k).2
              (by rw [keys_cons]; exact List.mem_cons_of_mem _ hm)
            rw [keys_cons, List.mem_cons] at hmf
            rcases hmf with h | h
            · exact absurd h (by omega)
            · exact h
        · intro k
          by_cases hk : k = kv.1
          · rw [hk, get_eq_zero_of_not_mem_keys hnf,
              get_eq_zero_of_not_mem_keys hng]
          · have hkv1 : kv.1 ≠ k := fun hh => hk hh.symm
            have hkw1 : kw.1 ≠ k := by omega
            have h1 := hget k
            rw [get_cons, if_neg hkv1, get_cons, if_neg hkw1] at h1
            exact h1
      have hkv : kv = kw := Prod.ext hk12 hv
      rw [hkv, htail]

theorem union_comm (a b : Factors) (ha : SortedKeys a) (hb : SortedKeys b) :
    union a b = union b a := by
  apply factors_ext _ _ (sortedKeys_union b a ha) (sortedKeys_union a b hb)
  · intro k
    rw [mem_keys_union, mem_keys_union]
    exact or_comm
  · intro k
    rw [get_union b (nodup_keys_of_sorted hb) a k,
      get_union a (nodup_keys_of_sorted ha) b k]
    exact Nat.max_comm _ _

theorem intersection_comm (a b : Factors) (ha : SortedKeys a)
    (hb : SortedKeys b) : intersection a b = intersection b a := by
  apply factors_ext _ _ (sortedKeys_intersection a b) (sortedKeys_intersection b a)
  · intro k
    rw [mem_keys_intersection, mem_keys_intersection]
    exact and_comm
  · intro k
    rw [get_intersection a b (nodup_keys_of_sorted ha) k,
      get_intersection b a (nodup_keys_of_sorted hb) k]
    by_cases h : k ∈ keys a ∧ k ∈ keys b
    · rw [if_pos h, if_pos ⟨h.2, h.1⟩]
      exact Nat.min_comm _ _
    · rw [if_neg h, if_neg (fun hh => h ⟨hh.2, hh.1⟩)]

theorem totient_nil : totient [] = 0 := rfl

theorem totient_eq_prod_map (f : Factors) (hne : f ≠ []) :
    totient f = (f.map fun kv => kv.1 ^ kv.2 - kv.1 ^ (kv.2 - 1)).prod := by
  cases f with
  | nil => exact absurd rfl hne
  | cons kv rest =>
    show (if is_empty (kv :: rest) then 0
      else (kv :: rest).foldl (fun t kv => t * (kv.1 ^ kv.2 - kv.1 ^ (kv.2 - 1))) 1) = _
    rw [if_neg (by simp [is_empty]), foldl_mul_init, Nat.one_mul]

theorem coprime_toNat_of_forall_ne {p : Nat} (hp : Nat.Prime p) :
    ∀ (f : Factors), (∀ kv ∈ f, Nat.Prime kv.1) → (∀ kv ∈ f, kv.1 ≠ p) →
    Nat.Coprime p (toNat f) := by
  intro f
  induction f with
  | nil =>
    intro _ _
    rw [toNat_nil]
    exact Nat.coprime_one_right p
  | cons kv rest ih =>
    intro hprime hne
    rw [toNat_cons]
    have h1 : Nat.Coprime p kv.1 :=
      (Nat.coprime_primes hp (hprime kv (List.mem_cons_self _ _))).2
        (fun hh => hne kv (List.mem_cons_self _ _) hh.symm)
    exact Nat.Coprime.mul_right (Nat.Coprime.pow_right _ h1)
      (ih (fun kv' h => hprime kv' (List.mem_cons_of_mem _ h))
        (fun kv' h => hne kv' (List.mem_cons_of_mem _ h)))

/-- The totient product formula over a factorization with distinct prime
keys and positive exponents is Euler's totient of the represented integer. -/
theorem prod_totient_eq : ∀ (f : Factors), SortedKeys f →
    (∀ kv ∈ f, Nat.Prime kv.1) → AllPos f →
    (f.map fun kv => kv.1 ^ kv.2 - kv.1 ^ (kv.2 - 1)).prod =
      Nat.totient (toNat f) := by
  intro f
  induction f with
  | nil =>
    intro _ _ _
    rw [toNat_nil]
    simp [Nat.totient_one]
  | cons kv rest ih =>
    intro hs hp hpos
    rw [SortedKeys, keys_cons, List.pairwise_cons] at hs
    have hkvp : Nat.Prime kv.1 := hp kv (List.mem_cons_self _ _)
    have hkve : 0 < kv.2 := hpos kv (List.mem_cons_self _ _)
    have hp' : ∀ kv' ∈ rest, Nat.Prime kv'.1 :=
      fun kv' h => hp kv' (List.mem_cons_of_mem _ h)
    have hpos' : AllPos rest := fun kv' h => hpos kv' (List.mem_cons_of_mem _ h)
    have hne : ∀ kv' ∈ rest, kv'.1 ≠ kv.1 := by
      intro kv' h heq
      have := hs.1 kv'.1 (List.mem_map_of_mem Prod.fst h)
      omega
    have hcop : Nat.Coprime (kv.1 ^ kv.2) (toNat rest) :=
      Nat.Coprime.pow_left _ (coprime_toNat_of_forall_ne hkvp rest hp' hne)
    rw [List.map_cons, List.prod_cons, toNat_cons, Nat.totient_mul hcop,
      ← ih hs.2 hp' hpos', Nat.totient_prime_pow hkvp hkve]
    congr 1
    have hsplit : kv.1 ^ kv.2 = kv.1 ^ (kv.2 - 1) * kv.1 := by
      rw [← pow_succ]
      congr 1
      omega
    rw [hsplit, Nat.mul_sub, Nat.mul_one, Nat.mul_comm]

theorem mul_nil (a : Factors) : mul a [] = a := rfl

theorem mul_cons (a : Factors) (kv : Nat × Nat) (rest : Factors) :
    mul a (kv :: rest) = mul (bumpAdd kv.1 kv.2 a) rest := rfl

theorem allPos_mul : ∀ (b a : Factors), AllPos a → AllPos b →
    AllPos (mul a b) := by
  intro b
  induction b with
  | nil =>
    intro a ha _
    rwa [mul_nil]
  | cons kv rest ih =>
    intro a ha hb
    have hkv : 0 < kv.2 := hb kv (List.mem_cons_self _ _)
    have hb' : AllPos rest := fun kv' h => hb kv' (List.mem_cons_of_mem _ h)
    rw [mul_cons]
    refine ih _ ?_ hb'
    rw [bumpAdd]
    exact allPos_setKey (by omega) ha

end Factors

/-- Soundness of `Factors::of`: on a strictly sorted base of entries ≥ 2
that contains every prime divisor of `n` smaller than one of its members,
a successful factorization reconstructs exactly `n`, with sorted keys and
positive exponents. -/
theorem of_exact {base : List Nat} {n : Nat} {f : Factors}
    (hsort : List.Pairwise (· < ·) base) (h2 : ∀ p ∈ base, 2 ≤ p)
    (H : ∀ q p', Nat.Prime q → q ∣ n → p' ∈ base → q < p' → q ∈ base)
    (hn : 0 < n) (h : Factors.of n base = some f) :
    Factors.toNat f = n ∧ SortedKeys f ∧ AllPos f := by
  match n, hn, h with
  | 0, hn, _ => exact absurd hn (lt_irrefl 0)
  | 1, _, h =>
    obtain rfl : ([] : Factors) = f := Option.some.inj h
    exact ⟨rfl, sortedKeys_nil, allPos_nil⟩
  | (m + 2), _, h =>
    have h' : Factors.ofLoop base (m + 2) [] = some f := h
    refine ⟨?_, Factors.ofLoop_sorted base _ _ _ sortedKeys_nil h',
      Factors.ofLoop_allpos base _ _ _ allPos_nil h'⟩
    obtain ⟨pre, p', post, r, hps, hrp, hr, hrdvd, hpre, hnp', htn⟩ :=
      Factors.ofLoop_some base _ _ _ h2 (by omega) sortedKeys_nil h'
    have hp'base : p' ∈ base := by
      rw [hps]
      exact List.mem_append_right _ (List.mem_cons_self _ _)
    have hr1 : r = 1 := by
      by_contra hr1
      have hq : Nat.Prime r.minFac := Nat.minFac_prime hr1
      have hqr : r.minFac ∣ r := Nat.minFac_dvd r
      have hqle : r.minFac ≤ r := Nat.minFac_le hr
      have hqbase : r.minFac ∈ base :=
        H r.minFac p' hq (dvd_trans hqr hrdvd) hp'base (by omega)
      rw [hps] at hqbase hsort
      rcases List.mem_append.1 hqbase with hmem | hmem
      · exact hpre _ hmem hqr
      · rcases List.mem_cons.1 hmem with heq | hmem
        · omega
        · have hlt : p' < r.minFac :=
            (List.pairwise_cons.1 (List.pairwise_append.1 hsort).2.1).1 _ hmem
          omega
    rw [hr1, Nat.mul_one, Factors.toNat_nil, Nat.one_mul] at htn
    exact htn

/-- Completeness of `Factors::of`: a sorted, all-prime base that contains
every prime ≤ n certifies every n ≥ 2, and the result reconstructs `n`. -/
theorem of_succeeds {base : List Nat} {n : Nat} (hn2 : 2 ≤ n)
    (hsort : List.Pairwise (· < ·) base) (hp : ∀ p ∈ base, Nat.Prime p)
    (hall : ∀ q ≤ n, Nat.Prime q → q ∈ base) :
    ∃ f, Factors.of n base = some f ∧ Factors.toNat f = n := by
  have h2 : ∀ p ∈ base, 2 ≤ p := fun p hpm => (hp p hpm).two_le
  have hn : 0 < n := by omega
  have hnone : Factors.of n base ≠ none := by
    intro hno
    obtain ⟨m, rfl⟩ : ∃ m, n = m + 2 := ⟨n - 2, by omega⟩
    have hno' : Factors.ofLoop base (m + 2) [] = none := hno
    rcases (ofLoop_none_iff base (m + 2) [] hn h2 hsort).1 hno' with
      hb | ⟨pl, hlast, hple⟩
    · have h2base : (2 : Nat) ∈ base := hall 2 (by omega) Nat.prime_two
      rw [hb] at h2base
      simp at h2base
    · have hplbase : pl ∈ base := mem_of_getLast?_eq hlast
      have hpl2 : 2 ≤ pl := h2 pl hplbase
      have hrdvd : residue base (m + 2) ∣ (m + 2) := residue_dvd base _
      have hrpos : 0 < residue base (m + 2) := residue_pos base _ hn
      by_cases hr1 : residue base (m + 2) = 1
      · omega
      · have hq : Nat.Prime (residue base (m + 2)).minFac := Nat.minFac_prime hr1
        have hqdvd : (residue base (m + 2)).minFac ∣ residue base (m + 2) :=
          Nat.minFac_dvd _
        have hqn : (residue base (m + 2)).minFac ∣ (m + 2) :=
          dvd_trans hqdvd hrdvd
        have hqle : (residue base (m + 2)).minFac ≤ m + 2 := Nat.le_of_dvd hn hqn
        have hqbase := hall _ hqle hq
        exact residue_not_dvd base _ hn _ hqbase hq.two_le hqdvd
  cases hsome : Factors.of n base with
  | none => exact absurd hsome hnone
  | some f =>
    have H : ∀ q p', Nat.Prime q → q ∣ n → p' ∈ base → q < p' → q ∈ base :=
      fun q p' hq hqn _ _ => hall q (Nat.le_of_dvd hn hqn) hq
    exact ⟨f, rfl, (of_exact hsort h2 H hn hsome).1⟩

theorem gcd_of_two_le {base : Primes} {m n : Nat} (hm : 2 ≤ m) (hn : 2 ≤ n) :
    Primes.gcd base m n =
      match Factors.of m base, Factors.of n base with
      | some mf, some nf => some (Factors.toNat (Factors.intersection mf nf))
      | _, _ => none := by
  obtain ⟨m', rfl⟩ : ∃ m', m = m' + 2 := ⟨m - 2, by omega⟩
  obtain ⟨n', rfl⟩ : ∃ n', n = n' + 2 := ⟨n - 2, by omega⟩
  rfl

theorem lcm_of_two_le {base : Primes} {m n : Nat} (hm : 2 ≤ m) (hn : 2 ≤ n) :
    Primes.lcm base m n =
      match Factors.of m base, Factors.of n base with
      | some mf, some nf => some (Factors.toNat (Factors.union mf nf))
      | _, _ => none := by
  obtain ⟨m', rfl⟩ : ∃ m', m = m' + 2 := ⟨m - 2, by omega⟩
  obtain ⟨n', rfl⟩ : ∃ n', n = n' + 2 := ⟨n - 2, by omega⟩
  rfl

/-- C1 (code_bug evidence): at `a = b = Factors::of(2, Primes::under(3))`,
i.e. the factorization `{2: 1}`, the exponent condition of the claim holds
(every exponent of `a` is ≤ the matching exponent of `b`) and the
represented integer of `a` divides that of `b`, yet `is_subset a b` is
`false` — the code requires strictly greater exponents, contradicting its
own doc comment `a f(a) is a subset of f(b) if b % a == 0`. -/
theorem spec_C1_is_subset_bug :
    Factors.of 2 (Primes.under 3) = some [(2, 1)] ∧
    (∀ kv ∈ ([(2, 1)] : Factors), kv.2 ≤ Factors.get [(2, 1)] kv.1) ∧
    Factors.toNat [(2, 1)] ∣ Factors.toNat [(2, 1)] ∧
    Factors.is_subset [(2, 1)] [(2, 1)] = false := by
  refine ⟨?_, by decide, dvd_refl _, by decide⟩
  have hu : Primes.under 3 = [2] := by simp [Primes.under, Primes.underLoop]
  rw [hu]
  simp [Factors.of, Factors.ofLoop, Factors.divLoop, Factors.bumpAdd,
    Factors.setKey, Factors.get]

/-- C2: for n ≥ 2 and any strictly sorted all-prime base containing every
prime ≤ n, `Factors::of` succeeds and the reconstructed integer
(product of p^e) is exactly n. -/
theorem spec_C2_roundtrip (n : Nat) (base : List Nat) (hn : 2 ≤ n)
    (hsort : List.Pairwise (· < ·) base) (hp : ∀ p ∈ base, Nat.Prime p)
    (hall : ∀ q ≤ n, Nat.Prime q → q ∈ base) :
    ∃ f, Factors.of n base = some f ∧ Factors.toNat f = n :=
  of_succeeds hn hsort hp hall

theorem spec_C2_witness :
    ∃ f, Factors.of 6 [2, 3, 5] = some f ∧ Factors.toNat f = 6 :=
  spec_C2_roundtrip 6 [2, 3, 5] (by decide) (by decide) (by decide) (by decide)

/-- C3: for m, n ≥ 2 whose factorizations are certifiable under a valid
base, `gcd` and `lcm` both return results and `gcd * lcm = m * n`. -/
theorem spec_C3_gcd_mul_lcm (base : Primes) (m n : Nat) (mf nf : Factors)
    (hb : ValidBase base) (hm : 2 ≤ m) (hn : 2 ≤ n)
    (hmf : Factors.of m base = some mf) (hnf : Factors.of n base = some nf) :
    ∃ g l, Primes.gcd base m n = some g ∧ Primes.lcm base m n = some l ∧
      g * l = m * n := by
  obtain ⟨hsort, hprime, hdc⟩ := hb
  have h2 : ∀ p ∈ base, 2 ≤ p := fun p hp => (hprime p hp).two_le
  have Hm : ∀ q p', Nat.Prime q → q ∣ m → p' ∈ base → q < p' → q ∈ base :=
    fun q p' hq _ hp' hlt => hdc p' hp' q hlt hq
  have Hn : ∀ q p', Nat.Prime q → q ∣ n → p' ∈ base → q < p' → q ∈ base :=
    fun q p' hq _ hp' hlt => hdc p' hp' q hlt hq
  obtain ⟨hm_to, hm_s, _⟩ := of_exact hsort h2 Hm (by omega) hmf
  obtain ⟨hn_to, hn_s, _⟩ := of_exact hsort h2 Hn (by omega) hnf
  refine ⟨Factors.toNat (Factors.intersection mf nf),
    Factors.toNat (Factors.union mf nf), ?_, ?_, ?_⟩
  · rw [gcd_of_two_le hm hn, hmf, hnf]
  · rw [lcm_of_two_le hm hn, hmf, hnf]
  · rw [← hm_to, ← hn_to]
    exact Factors.toNat_inter_mul_toNat_union mf nf hm_s hn_s

theorem spec_C3_witness :
    ∃ g l, Primes.gcd [2, 3, 5] 4 6 = some g ∧
      Primes.lcm [2, 3, 5] 4 6 = some l ∧ g * l = 4 * 6 :=
  spec_C3_gcd_mul_lcm [2, 3, 5] 4 6 [(2, 2)] [(2, 1), (3, 1)] (by decide)
    (by decide) (by decide)
    (by simp [Factors.of, Factors.ofLoop, Factors.divLoop, Factors.bumpAdd,
      Factors.setKey, Factors.get])
    (by simp [Factors.of, Factors.ofLoop, Factors.divLoop, Factors.bumpAdd,
      Factors.setKey, Factors.get])

/-- C4 (code_bug evidence): `Primes::under(2)` returns `[2]`, which contains
a prime not strictly below the limit — contradicting the claim (and the
function's own doc) that `under(limit)` returns only primes `< limit`. -/
theorem spec_C4_under_two_bug :
    Primes.under 2 = [2] ∧ ¬ (∀ p ∈ Primes.under 2, p < 2) := by
  have h : Primes.under 2 = [2] := by simp [Primes.under, Primes.underLoop]
  refine ⟨h, fun hall => ?_⟩
  have h2 := hall 2 (by rw [h]; exact List.mem_cons_self _ _)
  omega

/-- C5: `of(0, _)` is None; `of(1, _)` is the empty factorization; and for
n ≥ 2 on a sorted base of entries ≥ 2, `of` is None exactly when the base is
empty or its last prime does not exceed the final remainder. -/
theorem spec_C5_of_edge :
    (∀ base : Primes, Factors.of 0 base = none) ∧
    (∀ base : Primes, Factors.of 1 base = some []) ∧
    (∀ (base : Primes) (n : Nat), 2 ≤ n → List.Pairwise (· < ·) base →
      (∀ p ∈ base, 2 ≤ p) →
      (Factors.of n base = none ↔
        base = [] ∨ ∃ pl, base.getLast? = some pl ∧ pl ≤ residue base n)) := by
  refine ⟨fun base => rfl, fun base => rfl, ?_⟩
  intro base n hn hsort h2
  obtain ⟨m, rfl⟩ : ∃ m, n = m + 2 := ⟨n - 2, by omega⟩
  show Factors.ofLoop base (m + 2) [] = none ↔ _
  exact ofLoop_none_iff base (m + 2) [] (by omega) h2 hsort

theorem spec_C5_witness :
    Factors.of 0 [2, 3] = none ∧ Factors.of 1 [2, 3] = some [] ∧
      Factors.of 7 [2, 3] = none :=
  ⟨spec_C5_of_edge.1 [2, 3], spec_C5_of_edge.2.1 [2, 3],
    (spec_C5_of_edge.2.2 [2, 3] 7 (by decide) (by decide) (by decide)).mpr
      (Or.inr ⟨3, rfl, by
        have h : residue [2, 3] 7 = 7 := by
          rw [residue_cons, residue_cons, residue_nil,
            Factors.divLoop_eq 2 7 [], if_neg (by decide)]
          show (Factors.divLoop 3 7 []).1 = 7
          rw [Factors.divLoop_eq 3 7 [], if_neg (by decide)]
        omega⟩)⟩

/-- C6: `totient` of the empty factorization is 0; otherwise it is the
product of `p^e - p^(e-1)` over the entries, which equals Euler's totient
of the represented integer. -/
theorem spec_C6_totient (f : Factors) (hs : SortedKeys f)
    (hp : ∀ kv ∈ f, Nat.Prime kv.1) (hpos : AllPos f) :
    Factors.totient [] = 0 ∧
    (f ≠ [] →
      Factors.totient f =
        (f.map fun kv => kv.1 ^ kv.2 - kv.1 ^ (kv.2 - 1)).prod ∧
      Factors.totient f = Nat.totient (Factors.toNat f)) := by
  refine ⟨rfl, fun hne => ?_⟩
  have h1 := Factors.totient_eq_prod_map f hne
  refine ⟨h1, ?_⟩
  rw [h1]
  exact Factors.prod_totient_eq f hs hp hpos

theorem spec_C6_witness :
    Factors.totient [(2, 2), (3, 1)] =
      Nat.totient (Factors.toNat [(2, 2), (3, 1)]) :=
  ((spec_C6_totient [(2, 2), (3, 1)] (by decide) (by decide) (by decide)).2
    (by simp)).2

/-- C7: `lcm(0,0) = 0`; `lcm` with exactly one zero operand is None; and an
operand equal to 1 short-circuits to the other operand, for every base. -/
theorem spec_C7_lcm_edge (base : Primes) (m : Nat) :
    Primes.lcm base 0 0 = some 0 ∧
    (m ≠ 0 → Primes.lcm base 0 m = none ∧ Primes.lcm base m 0 = none) ∧
    (m ≠ 0 → Primes.lcm base m 1 = some m ∧ Primes.lcm base 1 m = some m) := by
  refine ⟨rfl, ?_, ?_⟩
  · intro hm
    rcases m with _ | _ | m
    · omega
    · exact ⟨rfl, rfl⟩
    · exact ⟨rfl, rfl⟩
  · intro hm
    rcases m with _ | _ | m
    · omega
    · exact ⟨rfl, rfl⟩
    · exact ⟨rfl, rfl⟩

theorem spec_C7_witness :
    Primes.lcm [] 0 0 = some 0 ∧
      (Primes.lcm [] 0 5 = none ∧ Primes.lcm [] 5 0 = none) ∧
      (Primes.lcm [] 5 1 = some 5 ∧ Primes.lcm [] 1 5 = some 5) :=
  ⟨(spec_C7_lcm_edge [] 5).1, (spec_C7_lcm_edge [] 5).2.1 (by decide),
    (spec_C7_lcm_edge [] 5).2.2 (by decide)⟩

/-- C8: `gcd` with any zero operand is None (including `gcd(0,1)` and
`gcd(1,0)`), and an operand equal to 1 (with the other nonzero)
short-circuits to 1, for every base. -/
theorem spec_C8_gcd_edge (base : Primes) (m : Nat) :
    Primes.gcd base 0 m = none ∧ Primes.gcd base m 0 = none ∧
    (m ≠ 0 → Primes.gcd base 1 m = some 1 ∧ Primes.gcd base m 1 = some 1) := by
  refine ⟨?_, ?_, ?_⟩
  · rcases m with _ | _ | m <;> rfl
  · rcases m with _ | _ | m <;> rfl
  · intro hm
    rcases m with _ | _ | m
    · omega
    · exact ⟨rfl, rfl⟩
    · exact ⟨rfl, rfl⟩

theorem spec_C8_witness :
    Primes.gcd [2, 3] 0 1 = none ∧ Primes.gcd [2, 3] 1 0 = none ∧
      (Primes.gcd [2, 3] 1 90000 = some 1 ∧ Primes.gcd [2, 3] 90000 1 = some 1) :=
  ⟨(spec_C8_gcd_edge [2, 3] 1).1, (spec_C8_gcd_edge [2, 3] 1).2.1,
    (spec_C8_gcd_edge [2, 3] 90000).2.2 (by decide)⟩

/-- C9: every factorization returned by `Factors::of`, and every result of
`mul`, `union`, `intersection` on inputs satisfying the invariant, has only
strictly positive exponents. -/
theorem spec_C9_positive_exponents :
    (∀ (n : Nat) (base : Primes) (f : Factors),
      Factors.of n base = some f → AllPos f) ∧
    (∀ a b : Factors, AllPos a → AllPos b → AllPos (Factors.mul a b)) ∧
    (∀ a b : Factors, AllPos a → AllPos b → AllPos (Factors.union a b)) ∧
    (∀ a b : Factors, AllPos a → AllPos b → AllPos (Factors.intersection a b)) := by
  refine ⟨?_, ?_, ?_, ?_⟩
  · intro n base f h
    match n, h with
    | 0, h => simp [Factors.of] at h
    | 1, h =>
      obtain rfl : ([] : Factors) = f := Option.some.inj h
      exact allPos_nil
    | (m + 2), h => exact Factors.ofLoop_allpos base _ _ _ allPos_nil h
  · exact fun a b ha hb => Factors.allPos_mul b a ha hb
  · exact fun a b ha hb => Factors.allPos_union b a ha hb
  · exact fun a b ha hb => Factors.allPos_intersection a b ha hb

theorem spec_C9_witness :
    AllPos [(2, 2), (3, 1)] ∧
      AllPos (Factors.mul [(2, 1)] [(2, 1), (3, 2)]) ∧
      AllPos (Factors.union [(2, 1)] [(3, 2)]) ∧
      AllPos (Factors.intersection [(2, 1), (3, 1)] [(2, 2)]) :=
  ⟨spec_C9_positive_exponents.1 12 [2, 3] [(2, 2), (3, 1)]
      (by simp [Factors.of, Factors.ofLoop, Factors.divLoop, Factors.bumpAdd,
        Factors.setKey, Factors.get]),
    spec_C9_positive_exponents.2.1 _ _ (by decide) (by decide),
    spec_C9_positive_exponents.2.2.1 _ _ (by decide) (by decide),
    spec_C9_positive_exponents.2.2.2 _ _ (by decide) (by decide)⟩

/-- C10: `union` and `intersection` are commutative on factorizations with
the BTreeMap key invariant. -/
theorem spec_C10_comm (a b : Factors) (ha : SortedKeys a) (hb : SortedKeys b) :
    Factors.union a b = Factors.union b a ∧
      Factors.intersection a b = Factors.intersection b a :=
  ⟨Factors.union_comm a b ha hb, Factors.intersection_comm a b ha hb⟩

theorem spec_C10_witness :
    Factors.union [(2, 1), (5, 2)] [(3, 4)] =
        Factors.union [(3, 4)] [(2, 1), (5, 2)] ∧
      Factors.intersection [(2, 1), (5, 2)] [(3, 4)] =
        Factors.intersection [(3, 4)] [(2, 1), (5, 2)] :=
  spec_C10_comm _ _ (by decide) (by decide)

example : Factors.of 24 [2, 3, 5, 7, 11, 13, 17, 19] = some [(2, 3), (3, 1)] := by
  simp [Factors.of, Factors.ofLoop, Factors.divLoop, Factors.bumpAdd,
    Factors.setKey, Factors.get]

example : Primes.under 12 = [2, 3, 5, 7, 11] := by
  simp [Primes.under, Primes.underLoop]

example : Primes.under 2 = [2] := by
  simp [Primes.under, Primes.underLoop]

example : Factors.is_subset [(2, 1)] [(2, 1)] = false := by decide

example : Factors.totient [(2, 2), (3, 1), (5, 1)] = 16 := by decide

example : ValidBase [2, 3, 5, 7, 11] := by decide
